import Mathlib

/-!
Verification of the CMAC core of the miscreant repository
(`src/rust/src/internals/block.rs`, `cmac.rs`, `mod.rs`).

Bytes are modelled as `Nat` (values below 256 where it matters), a cipher
block as a `List Nat` of length 16, and the generic `C: BlockCipher`
capability as an explicit encryption function `enc : List Nat → List Nat`.
Panics are modelled as `none`.
-/

/-- Modelled from the spec: `xor::in_place` lives in `internals/xor.rs`,
which is not among the provided source files; the spec (§4.1, §9) states
that XOR of byte buffers is plain elementwise XOR.  `xorInto st pos bytes`
XORs `bytes` elementwise into the buffer `st` starting at offset `pos`,
i.e. it models `xor::in_place(&mut st[pos..pos+len], bytes)`. -/
def xorInto : List Nat → Nat → List Nat → List Nat
  | st, _, [] => st
  | st, pos, b :: rest => xorInto (st.set pos (st.getD pos 0 ^^^ b)) (pos + 1) rest

/-- `Block::xor_in_place` (block.rs lines 25–48): XOR the other block's 16
bytes into this one.  Both source branches (the aligned whole-word XOR and
the `util::xor_in_place` byte-wise fallback) compute the same elementwise
XOR; the alignment test is a memory-layout optimization with identical
output (spec §4.1, §9). -/
def Block.xor_in_place (self other : List Nat) : List Nat :=
  xorInto self 0 other

/-- Modelled from the spec: `Block::dbl` delegates to `util::dbl` in
`internals/util.rs`, which is not among the provided source files.  Spec
§4.1: treat the 16 bytes as a big-endian 128-bit integer, left-shift by one
bit, and if the original most-significant bit was 1, XOR the constant 0x87
into the least-significant byte. -/
def Block.dbl (b : List Nat) : List Nat :=
  let n := b.foldl (fun acc x => acc * 256 + x) 0
  let shifted := (2 * n) % (2 ^ 128)
  let out := if 2 ^ 127 ≤ n then shifted ^^^ 0x87 else shifted
  (List.range 16).map (fun i => out / 2 ^ (8 * (15 - i)) % 256)

/-- `Block::new()`: a zero-filled 16-byte block. -/
def zeroBlock : List Nat := List.replicate 16 0

/-- The `Cmac<C>` struct of cmac.rs.  The owned `cipher` field is the
generic capability `C: BlockCipher`; it is carried as the explicit `enc`
argument of every operation instead of being stored. -/
structure Cmac where
  subkey1 : List Nat
  subkey2 : List Nat
  state : List Nat
  state_pos : Nat
  finished : Bool
deriving DecidableEq

/-- `Cmac::new` (cmac.rs lines 21–37): `subkey1` is the encryption of the
zero block, doubled; `subkey2` is `subkey1` doubled again; `state` starts
as the zero block with `state_pos = 0` and `finished = false`. -/
def Cmac.new (enc : List Nat → List Nat) : Cmac :=
  let subkey1 := Block.dbl (enc zeroBlock)
  let subkey2 := Block.dbl subkey1
  { subkey1 := subkey1
    subkey2 := subkey2
    state := zeroBlock
    state_pos := 0
    finished := false }

/-- `Cmac::reset` (cmac.rs lines 41–45): clear `state`, `state_pos`,
`finished`; subkeys (and the owned cipher) are untouched. -/
def Cmac.reset (c : Cmac) : Cmac :=
  { c with state := zeroBlock, state_pos := 0, finished := false }

/-- The `while msg_len > BLOCK_SIZE` loop of `Cmac::update` (cmac.rs lines
72–81), with an explicit fuel argument to make the recursion structural.
Each iteration XORs the next full 16-byte chunk of `msg` into the state and
encrypts it, advancing `msg_pos` by 16 and decreasing `msg_len` by 16. -/
def updateLoopFuel (enc : List Nat → List Nat) (msg : List Nat) :
    Nat → List Nat → Nat → Nat → List Nat × Nat × Nat
  | 0, state, msg_pos, msg_len => (state, msg_pos, msg_len)
  | fuel + 1, state, msg_pos, msg_len =>
    if 16 < msg_len then
      updateLoopFuel enc msg fuel
        (enc (Block.xor_in_place state ((msg.drop msg_pos).take 16)))
        (msg_pos + 16) (msg_len - 16)
    else (state, msg_pos, msg_len)

/-- The `while` loop of `Cmac::update`, entered with the given state,
message cursor and remaining length.  Since every iteration requires
`msg_len > 16` and decreases `msg_len` by 16, a fuel of `msg_len` is
always sufficient, so this is exactly the source loop. -/
def updateLoop (enc : List Nat → List Nat) (msg : List Nat)
    (state : List Nat) (msg_pos msg_len : Nat) : List Nat × Nat × Nat :=
  updateLoopFuel enc msg msg_len state msg_pos msg_len

/-- The trailing `if msg_len > 0` step of `Cmac::update` (cmac.rs lines
83–92): XOR the remaining tail bytes into the state at `pos` and advance
`state_pos` by the tail length. -/
def updateTail (msg : List Nat) (pos : Nat) (r : List Nat × Nat × Nat) :
    List Nat × Nat :=
  if 0 < r.2.2 then
    (xorInto r.1 pos ((msg.drop r.2.1).take r.2.2), pos + r.2.2)
  else (r.1, pos)

/-- `Cmac::update` (cmac.rs lines 50–93).  Panicking (`already finished`)
is modelled as `none`.  If the input has strictly more bytes than fit in
the current block, the block is completed, encrypted and `state_pos` reset
to 0 before the interior-block loop; leftover tail bytes are XORed in at
the current position. -/
def Cmac.update (enc : List Nat → List Nat) (c : Cmac) (msg : List Nat) :
    Option Cmac :=
  if c.finished then none
  else
    let msg_len := msg.length
    let remaining := 16 - c.state_pos
    if remaining < msg_len then
      let state := enc (xorInto c.state c.state_pos (msg.take remaining))
      let sp := updateTail msg 0 (updateLoop enc msg state remaining (msg_len - remaining))
      some { c with state := sp.1, state_pos := sp.2 }
    else
      let sp := updateTail msg c.state_pos (updateLoop enc msg c.state 0 msg_len)
      some { c with state := sp.1, state_pos := sp.2 }

/-- `Cmac::finish` (cmac.rs lines 98–117).  Panicking (`already finished`)
is modelled as `none`.  Returns the tag together with the mutated
instance (`self.state` holds the tag, `finished` is set; `state_pos` is
left unchanged). -/
def Cmac.finish (enc : List Nat → List Nat) (c : Cmac) :
    Option (List Nat × Cmac) :=
  if c.finished then none
  else
    let s1 := if c.state_pos = 16 then Block.xor_in_place c.state c.subkey1
              else Block.xor_in_place c.state c.subkey2
    let s2 := if c.state_pos < 16 then s1.set c.state_pos (s1.getD c.state_pos 0 ^^^ 0x80)
              else s1
    let s3 := enc s2
    some (s3, { c with state := s3, finished := true })

/-- Feed a sequence of `update` calls; a panic (`none`) propagates. -/
def updateMany (enc : List Nat → List Nat) (oc : Option Cmac)
    (chunks : List (List Nat)) : Option Cmac :=
  chunks.foldl (fun oc m => oc.bind (fun c => Cmac.update enc c m)) oc

/-- The tag produced by a sequence of `update` calls followed by `finish`,
starting from the instance `c`. -/
def tagOfChunks (enc : List Nat → List Nat) (c : Cmac)
    (chunks : List (List Nat)) : Option (List Nat) :=
  (updateMany enc (some c) chunks).bind (fun c => (Cmac.finish enc c).map Prod.fst)

/-- Absorbing a single message byte: the per-byte transition that
`Cmac::update` realizes blockwise.  At a full buffer (`pos = 16`) the
pending block is first encrypted, then the byte starts a fresh block. -/
def absorbByte (enc : List Nat → List Nat) (sp : List Nat × Nat) (b : Nat) :
    List Nat × Nat :=
  if sp.2 = 16 then (xorInto (enc sp.1) 0 [b], 1)
  else (xorInto sp.1 sp.2 [b], sp.2 + 1)

/-- A concrete test-stub cipher (spec §4.2 allows any deterministic
single-operation capability): add one to every byte, modulo 256. -/
def encSucc (b : List Nat) : List Nat := b.map (fun x => (x + 1) % 256)

/-- The fresh instance for the `encSucc` stub after finishing the empty
message: its state holds the tag and the finished flag is set. -/
def cFin : Cmac :=
  { subkey1 := List.replicate 16 2
    subkey2 := List.replicate 16 4
    state := 0x85 :: List.replicate 15 5
    state_pos := 0
    finished := true }

/-- The fresh `encSucc` instance after absorbing the single byte 1. -/
def cOne : Cmac :=
  { subkey1 := List.replicate 16 2
    subkey2 := List.replicate 16 4
    state := 1 :: List.replicate 15 0
    state_pos := 1
    finished := false }

/-- The states of a `Cmac` instance reachable from `Cmac::new` through the
public operations `update`, `finish` and `reset` (for a fixed cipher). -/
inductive Reachable (enc : List Nat → List Nat) : Cmac → Prop
  | new : Reachable enc (Cmac.new enc)
  | rst (c : Cmac) : Reachable enc c → Reachable enc (Cmac.reset c)
  | upd (c c' : Cmac) (msg : List Nat) : Reachable enc c →
      Cmac.update enc c msg = some c' → Reachable enc c'
  | fin (c c' : Cmac) (t : List Nat) : Reachable enc c →
      Cmac.finish enc c = some (t, c') → Reachable enc c'

example : Cmac.update encSucc (Cmac.new encSucc) [1, 2, 3] =
    some { (Cmac.new encSucc) with
      state := [1, 2, 3, 0, 0, 0, 0, 0, 0, 0, 0, 0, 0, 0, 0, 0]
      state_pos := 3 } := by decide

example : (Cmac.new encSucc).subkey1 = List.replicate 16 2 := by decide

example : Block.xor_in_place
    [0x17, 0xcc, 0xf7, 0xf7, 0xa1, 0x8c, 0xbc, 0x3d,
     0x8d, 0xad, 0x00, 0xf1, 0xc9, 0x79, 0x9f, 0xba]
    [0x8d, 0xa8, 0xd5, 0x40, 0x7c, 0x9a, 0x62, 0xa0,
     0x7b, 0x89, 0x94, 0x39, 0x3a, 0x84, 0xf1, 0x6b] =
    [0x9a, 0x64, 0x22, 0xb7, 0xdd, 0x16, 0xde, 0x9d,
     0xf6, 0x24, 0x94, 0xc8, 0xf3, 0xfd, 0x6e, 0xd1] := by decide

/-- The position component of a single byte absorption. -/
theorem absorbByte_snd (enc : List Nat → List Nat) (sp : List Nat × Nat) (b : Nat) :
    (absorbByte enc sp b).2 = if sp.2 = 16 then 1 else sp.2 + 1 := by
  unfold absorbByte
  by_cases h : sp.2 = 16 <;> simp [h]

/-- Absorbing bytes that all fit in the current block is a single
`xorInto` at the current position. -/
theorem foldl_absorb_small (enc : List Nat → List Nat) :
    ∀ (msg st : List Nat) (pos : Nat), pos + msg.length ≤ 16 →
      List.foldl (absorbByte enc) (st, pos) msg = (xorInto st pos msg, pos + msg.length) := by
  intro msg
  induction msg with
  | nil => intro st pos _; simp [xorInto]
  | cons b rest ih =>
    intro st pos h
    simp only [List.length_cons] at h
    have hpos : ¬ pos = 16 := by omega
    have h' : (pos + 1) + rest.length ≤ 16 := by omega
    simp only [List.foldl_cons, absorbByte, hpos, if_false]
    rw [ih (xorInto st pos [b]) (pos + 1) h']
    simp only [Prod.mk.injEq, List.length_cons]
    exact ⟨rfl, by omega⟩

/-- Starting a fold at a full buffer first encrypts the pending block. -/
theorem foldl_absorb_enc (enc : List Nat → List Nat) (st : List Nat)
    (l : List Nat) (hl : l ≠ []) :
    List.foldl (absorbByte enc) (st, 16) l = List.foldl (absorbByte enc) (enc st, 0) l := by
  cases l with
  | nil => exact absurd rfl hl
  | cons b rest => simp [absorbByte]

/-- Byte-wise absorption keeps the cursor within the block bound. -/
theorem foldl_absorb_pos_le (enc : List Nat → List Nat) :
    ∀ (msg st : List Nat) (pos : Nat), pos ≤ 16 →
      (List.foldl (absorbByte enc) (st, pos) msg).2 ≤ 16 := by
  intro msg
  induction msg with
  | nil => intro st pos h; exact h
  | cons b rest ih =>
    intro st pos h
    simp only [List.foldl_cons]
    by_cases hpos : pos = 16
    · simpa [absorbByte, hpos] using ih (xorInto (enc st) 0 [b]) 1 (by omega)
    · simpa [absorbByte, hpos] using ih (xorInto st pos [b]) (pos + 1) (by omega)

/-- The cursor after absorbing a whole message from a fresh block. -/
theorem foldl_absorb_pos_eq (enc : List Nat → List Nat) (st : List Nat) :
    ∀ (msg : List Nat), (List.foldl (absorbByte enc) (st, 0) msg).2 =
      if msg.length = 0 then 0 else (msg.length - 1) % 16 + 1 := by
  intro msg
  induction msg using List.reverseRecOn with
  | nil => simp
  | append_singleton l b ih =>
    rw [List.foldl_append, List.foldl_cons, List.foldl_nil, absorbByte_snd, ih]
    rcases Nat.eq_zero_or_pos l.length with h0 | h0
    · simp [h0]
    · have hne : ¬ l.length = 0 := by omega
      simp only [List.length_append, List.length_singleton]
      rw [if_neg hne, if_neg (by omega : ¬ l.length + 1 = 0)]
      by_cases hl : (l.length - 1) % 16 + 1 = 16
      · rw [if_pos hl]; omega
      · rw [if_neg hl]; omega

/-- The interior-block loop exits immediately on at most one block. -/
theorem updateLoopFuel_small (enc : List Nat → List Nat) (msg st : List Nat)
    (fuel msg_pos msg_len : Nat) (h : ¬ 16 < msg_len) :
    updateLoopFuel enc msg fuel st msg_pos msg_len = (st, msg_pos, msg_len) := by
  cases fuel with
  | zero => rfl
  | succ fuel => simp [updateLoopFuel, h]

/-- The interior-block loop of `update` followed by its tail step, started
at a freshly emptied buffer, absorbs the remaining message suffix byte by
byte. -/
theorem loop_tail_eq_foldl (enc : List Nat → List Nat) :
    ∀ (fuel : Nat) (m msg : List Nat) (msg_pos : Nat) (st : List Nat),
      m.length ≤ fuel → msg.drop msg_pos = m →
      updateTail msg 0 (updateLoopFuel enc msg fuel st msg_pos m.length) =
        List.foldl (absorbByte enc) (st, 0) m := by
  intro fuel
  induction fuel with
  | zero =>
    intro m msg msg_pos st hk _
    have hm : m = [] := List.length_eq_zero.mp (Nat.le_zero.mp hk)
    subst hm
    simp [updateLoopFuel, updateTail]
  | succ fuel ih =>
    intro m msg msg_pos st hk hdrop
    by_cases h16 : 16 < m.length
    · have hstep : updateLoopFuel enc msg (fuel + 1) st msg_pos m.length =
          updateLoopFuel enc msg fuel
            (enc (Block.xor_in_place st ((msg.drop msg_pos).take 16)))
            (msg_pos + 16) (m.length - 16) := by
        simp [updateLoopFuel, h16]
      rw [hstep, hdrop]
      have hdrop' : msg.drop (msg_pos + 16) = m.drop 16 := by
        rw [← hdrop, List.drop_drop, Nat.add_comm]
      have hlen : m.length - 16 = (m.drop 16).length := by simp
      rw [hlen]
      rw [ih (m.drop 16) msg (msg_pos + 16)
        (enc (Block.xor_in_place st (m.take 16)))
        (by simp; omega) hdrop']
      conv_rhs => rw [← List.take_append_drop 16 m, List.foldl_append]
      rw [foldl_absorb_small enc (m.take 16) st 0 (by simp)]
      have h116 : (0 : Nat) + (m.take 16).length = 16 := by simp; omega
      rw [h116]
      rw [foldl_absorb_enc enc _ (m.drop 16)
        (by
          intro hnil
          have hl := congrArg List.length hnil
          simp at hl
          omega)]
      rfl
    · rw [updateLoopFuel_small enc msg st (fuel + 1) msg_pos m.length h16]
      rcases Nat.eq_zero_or_pos m.length with h0 | h0
      · have hm : m = [] := List.length_eq_zero.mp h0
        subst hm
        simp [updateTail]
      · have htail : updateTail msg 0 (st, msg_pos, m.length) =
            (xorInto st 0 ((msg.drop msg_pos).take m.length), 0 + m.length) := by
          simp [updateTail, h0]
        rw [htail, hdrop, List.take_length,
          foldl_absorb_small enc m st 0 (by omega)]

/-- `Cmac::update` on a not-yet-finished instance with a well-formed
cursor is exactly byte-wise absorption of the message. -/
theorem update_eq_foldl (enc : List Nat → List Nat) (c : Cmac) (msg : List Nat)
    (hf : c.finished = false) (hp : c.state_pos ≤ 16) :
    Cmac.update enc c msg =
      some { c with
        state := (List.foldl (absorbByte enc) (c.state, c.state_pos) msg).1
        state_pos := (List.foldl (absorbByte enc) (c.state, c.state_pos) msg).2 } := by
  unfold Cmac.update
  rw [hf, if_neg Bool.false_ne_true]
  dsimp only
  by_cases hrem : 16 - c.state_pos < msg.length
  · rw [if_pos hrem]
    unfold updateLoop
    have hmlen : msg.length - (16 - c.state_pos) = (msg.drop (16 - c.state_pos)).length := by
      simp
    rw [hmlen]
    rw [loop_tail_eq_foldl enc (msg.drop (16 - c.state_pos)).length
      (msg.drop (16 - c.state_pos)) msg (16 - c.state_pos)
      (enc (xorInto c.state c.state_pos (msg.take (16 - c.state_pos))))
      le_rfl rfl]
    conv_rhs => rw [← List.take_append_drop (16 - c.state_pos) msg, List.foldl_append]
    rw [foldl_absorb_small enc (msg.take (16 - c.state_pos)) c.state c.state_pos
      (by simp; omega)]
    have h16' : c.state_pos + (msg.take (16 - c.state_pos)).length = 16 := by
      simp; omega
    rw [h16']
    rw [foldl_absorb_enc enc _ (msg.drop (16 - c.state_pos))
      (by
        intro hnil
        have hl := congrArg List.length hnil
        simp at hl
        omega)]
  · rw [if_neg hrem]
    unfold updateLoop
    rw [updateLoopFuel_small enc msg c.state msg.length 0 msg.length (by omega)]
    rcases Nat.eq_zero_or_pos msg.length with h0 | h0
    · have hm : msg = [] := List.length_eq_zero.mp h0
      subst hm
      simp [updateTail]
    · have htail : updateTail msg c.state_pos (c.state, 0, msg.length) =
          (xorInto c.state c.state_pos ((msg.drop 0).take msg.length),
            c.state_pos + msg.length) := by
        simp [updateTail, h0]
      rw [htail, List.drop_zero, List.take_length,
        foldl_absorb_small enc msg c.state c.state_pos (by omega)]

/-- A successful `update` changes only `state` and `state_pos`. -/
theorem update_some_fields (enc : List Nat → List Nat) (c c' : Cmac) (msg : List Nat)
    (h : Cmac.update enc c msg = some c') :
    c'.subkey1 = c.subkey1 ∧ c'.subkey2 = c.subkey2 ∧ c'.finished = c.finished := by
  unfold Cmac.update at h
  by_cases hf : c.finished = true
  · rw [if_pos hf] at h
    exact absurd h (by simp)
  · rw [if_neg hf] at h
    dsimp only at h
    by_cases hrem : 16 - c.state_pos < msg.length
    · rw [if_pos hrem] at h
      cases h
      exact ⟨rfl, rfl, rfl⟩
    · rw [if_neg hrem] at h
      cases h
      exact ⟨rfl, rfl, rfl⟩

/-- A successful `finish` changes only `state` and `finished`. -/
theorem finish_some_fields (enc : List Nat → List Nat) (c c' : Cmac) (t : List Nat)
    (h : Cmac.finish enc c = some (t, c')) :
    c'.subkey1 = c.subkey1 ∧ c'.subkey2 = c.subkey2 ∧
      c'.state_pos = c.state_pos ∧ c'.finished = true := by
  unfold Cmac.finish at h
  by_cases hf : c.finished = true
  · rw [if_pos hf] at h
    exact absurd h (by simp)
  · rw [if_neg hf] at h
    dsimp only at h
    cases h
    exact ⟨rfl, rfl, rfl, rfl⟩

/-- A panic propagates through any further sequence of updates. -/
theorem updateMany_none (enc : List Nat → List Nat) (chunks : List (List Nat)) :
    updateMany enc none chunks = none := by
  induction chunks with
  | nil => rfl
  | cons m rest ih => simpa [updateMany] using ih

/-- Updates over a concatenation of chunk lists compose. -/
theorem updateMany_append (enc : List Nat → List Nat) (oc : Option Cmac)
    (l1 l2 : List (List Nat)) :
    updateMany enc oc (l1 ++ l2) = updateMany enc (updateMany enc oc l1) l2 := by
  simp [updateMany, List.foldl_append]

/-- A sequence of `update` calls on a ready instance absorbs the
concatenation of the chunks byte by byte. -/
theorem updateMany_eq_foldl (enc : List Nat → List Nat) :
    ∀ (chunks : List (List Nat)) (c : Cmac), c.finished = false → c.state_pos ≤ 16 →
      updateMany enc (some c) chunks =
        some { c with
          state := (List.foldl (absorbByte enc) (c.state, c.state_pos) chunks.flatten).1
          state_pos := (List.foldl (absorbByte enc) (c.state, c.state_pos) chunks.flatten).2 } := by
  intro chunks
  induction chunks with
  | nil => intro c _ _; rfl
  | cons m rest ih =>
    intro c hf hp
    have hstep : updateMany enc (some c) (m :: rest) =
        updateMany enc (Cmac.update enc c m) rest := rfl
    rw [hstep, update_eq_foldl enc c m hf hp]
    rw [ih { c with
        state := (List.foldl (absorbByte enc) (c.state, c.state_pos) m).1
        state_pos := (List.foldl (absorbByte enc) (c.state, c.state_pos) m).2 }
      hf (foldl_absorb_pos_le enc m c.state c.state_pos hp)]
    simp only [List.flatten_cons, List.foldl_append]

/-- Subkeys and the finished flag are untouched by update sequences. -/
theorem updateMany_some_fields (enc : List Nat → List Nat) :
    ∀ (chunks : List (List Nat)) (c c' : Cmac),
      updateMany enc (some c) chunks = some c' →
      c'.subkey1 = c.subkey1 ∧ c'.subkey2 = c.subkey2 ∧ c'.finished = c.finished := by
  intro chunks
  induction chunks with
  | nil =>
    intro c c' h
    cases h
    exact ⟨rfl, rfl, rfl⟩
  | cons m rest ih =>
    intro c c' h
    have hstep : updateMany enc (some c) (m :: rest) =
        updateMany enc (Cmac.update enc c m) rest := rfl
    rw [hstep] at h
    cases hcm : Cmac.update enc c m with
    | none =>
      rw [hcm, updateMany_none] at h
      exact absurd h (by simp)
    | some c1 =>
      rw [hcm] at h
      obtain ⟨h1, h2, h3⟩ := ih c1 c' h
      obtain ⟨g1, g2, g3⟩ := update_some_fields enc c c1 m hcm
      exact ⟨h1.trans g1, h2.trans g2, h3.trans g3⟩

/-- Every reachable instance carries the subkeys derived at construction. -/
theorem reachable_subkeys (enc : List Nat → List Nat) (c : Cmac) (h : Reachable enc c) :
    c.subkey1 = (Cmac.new enc).subkey1 ∧ c.subkey2 = (Cmac.new enc).subkey2 := by
  induction h with
  | new => exact ⟨rfl, rfl⟩
  | rst c hc ih => exact ih
  | upd c c' msg hc hup ih =>
    obtain ⟨g1, g2, _⟩ := update_some_fields enc c c' msg hup
    exact ⟨g1.trans ih.1, g2.trans ih.2⟩
  | fin c c' t hc hfin ih =>
    obtain ⟨g1, g2, _, _⟩ := finish_some_fields enc c c' t hfin
    exact ⟨g1.trans ih.1, g2.trans ih.2⟩

/-- The cursor bound `state_pos ≤ 16` holds in every reachable instance. -/
theorem reachable_pos_le (enc : List Nat → List Nat) (c : Cmac) (h : Reachable enc c) :
    c.state_pos ≤ 16 := by
  induction h with
  | new => show (0 : Nat) ≤ 16; omega
  | rst c hc ih => show (0 : Nat) ≤ 16; omega
  | upd c c' msg hc hup ih =>
    by_cases hf : c.finished = true
    · unfold Cmac.update at hup
      rw [if_pos hf] at hup
      exact absurd hup (by simp)
    · have hf' : c.finished = false := by revert hf; cases c.finished <;> simp
      rw [update_eq_foldl enc c msg hf' ih] at hup
      cases hup
      exact foldl_absorb_pos_le enc msg c.state c.state_pos ih
  | fin c c' t hc hfin ih =>
    obtain ⟨_, _, hpos, _⟩ := finish_some_fields enc c c' t hfin
    rw [hpos]
    exact ih

/-- `update` with an empty slice leaves the instance unchanged. -/
theorem update_nil (enc : List Nat → List Nat) (c : Cmac) (hf : c.finished = false) :
    Cmac.update enc c [] = some c := by
  unfold Cmac.update
  rw [if_neg (by rw [hf]; exact Bool.false_ne_true)]
  dsimp only
  rw [if_neg (by simp)]
  rfl

/-- On a ready instance with a well-formed cursor, `finish` either XORs
`subkey1` (cursor exactly 16) or XORs `subkey2` plus the 0x80 pad byte. -/
theorem finish_eq_of_ready (enc : List Nat → List Nat) (c : Cmac)
    (hf : c.finished = false) (hp : c.state_pos ≤ 16) :
    Cmac.finish enc c =
      if c.state_pos = 16 then
        some (enc (Block.xor_in_place c.state c.subkey1),
          { c with state := enc (Block.xor_in_place c.state c.subkey1), finished := true })
      else
        some (enc ((Block.xor_in_place c.state c.subkey2).set c.state_pos
            ((Block.xor_in_place c.state c.subkey2).getD c.state_pos 0 ^^^ 0x80)),
          { c with
            state := enc ((Block.xor_in_place c.state c.subkey2).set c.state_pos
              ((Block.xor_in_place c.state c.subkey2).getD c.state_pos 0 ^^^ 0x80))
            finished := true }) := by
  unfold Cmac.finish
  rw [if_neg (by rw [hf]; exact Bool.false_ne_true)]
  dsimp only
  by_cases h16 : c.state_pos = 16
  · simp only [if_pos h16, if_neg (show ¬ c.state_pos < 16 by omega)]
  · simp only [if_neg h16, if_pos (show c.state_pos < 16 by omega)]

/-- Claim C2: on a ready instance, `finish` XORs `subkey1` into the state
when `state_pos = 16`, otherwise XORs `subkey2` and additionally XORs 0x80
into the byte at offset `state_pos`; it then encrypts the state exactly
once, sets the finished flag, and returns the resulting block by value as
the tag. -/
theorem c2_finish_spec (enc : List Nat → List Nat) (c : Cmac)
    (hf : c.finished = false) (hp : c.state_pos ≤ 16) :
    Cmac.finish enc c =
      if c.state_pos = 16 then
        some (enc (Block.xor_in_place c.state c.subkey1),
          { c with state := enc (Block.xor_in_place c.state c.subkey1), finished := true })
      else
        some (enc ((Block.xor_in_place c.state c.subkey2).set c.state_pos
            ((Block.xor_in_place c.state c.subkey2).getD c.state_pos 0 ^^^ 0x80)),
          { c with
            state := enc ((Block.xor_in_place c.state c.subkey2).set c.state_pos
              ((Block.xor_in_place c.state c.subkey2).getD c.state_pos 0 ^^^ 0x80))
            finished := true }) :=
  finish_eq_of_ready enc c hf hp

/-- Witness for C2 at a concrete fresh instance (cursor 0, subkey2 branch
with padding). -/
theorem c2_finish_spec_witness :
    Cmac.finish encSucc (Cmac.new encSucc) =
      if (Cmac.new encSucc).state_pos = 16 then
        some (encSucc (Block.xor_in_place (Cmac.new encSucc).state (Cmac.new encSucc).subkey1),
          { (Cmac.new encSucc) with
            state := encSucc (Block.xor_in_place (Cmac.new encSucc).state (Cmac.new encSucc).subkey1)
            finished := true })
      else
        some (encSucc ((Block.xor_in_place (Cmac.new encSucc).state (Cmac.new encSucc).subkey2).set
            (Cmac.new encSucc).state_pos
            ((Block.xor_in_place (Cmac.new encSucc).state (Cmac.new encSucc).subkey2).getD
              (Cmac.new encSucc).state_pos 0 ^^^ 0x80)),
          { (Cmac.new encSucc) with
            state := encSucc ((Block.xor_in_place (Cmac.new encSucc).state (Cmac.new encSucc).subkey2).set
              (Cmac.new encSucc).state_pos
              ((Block.xor_in_place (Cmac.new encSucc).state (Cmac.new encSucc).subkey2).getD
                (Cmac.new encSucc).state_pos 0 ^^^ 0x80))
            finished := true }) :=
  c2_finish_spec encSucc (Cmac.new encSucc) rfl (by decide)

/-- Claim C5 counterexample: XORing block 8da8d5407c9a62a07b8994393a84f16b
into block 17ccf7f7a18cbc3d8dad00f1c9799fba does not give the byte string
stated in the claim (`9a6422b7dd169df6f62494c8f3fd6ed1`). -/
theorem c5_counterexample :
    Block.xor_in_place
      [0x17, 0xcc, 0xf7, 0xf7, 0xa1, 0x8c, 0xbc, 0x3d,
       0x8d, 0xad, 0x00, 0xf1, 0xc9, 0x79, 0x9f, 0xba]
      [0x8d, 0xa8, 0xd5, 0x40, 0x7c, 0x9a, 0x62, 0xa0,
       0x7b, 0x89, 0x94, 0x39, 0x3a, 0x84, 0xf1, 0x6b] ≠
    [0x9a, 0x64, 0x22, 0xb7, 0xdd, 0x16, 0x9d, 0xf6,
     0xf6, 0x24, 0x94, 0xc8, 0xf3, 0xfd, 0x6e, 0xd1] := by decide

/-- Claim C5 amended: the XOR of those two blocks is
`9a6422b7dd16de9df62494c8f3fd6ed1`, the value asserted byte-for-byte by
the repository's own `test_xor_in_place`. -/
theorem c5_xor_vector :
    Block.xor_in_place
      [0x17, 0xcc, 0xf7, 0xf7, 0xa1, 0x8c, 0xbc, 0x3d,
       0x8d, 0xad, 0x00, 0xf1, 0xc9, 0x79, 0x9f, 0xba]
      [0x8d, 0xa8, 0xd5, 0x40, 0x7c, 0x9a, 0x62, 0xa0,
       0x7b, 0x89, 0x94, 0x39, 0x3a, 0x84, 0xf1, 0x6b] =
    [0x9a, 0x64, 0x22, 0xb7, 0xdd, 0x16, 0xde, 0x9d,
     0xf6, 0x24, 0x94, 0xc8, 0xf3, 0xfd, 0x6e, 0xd1] := by decide

/-- Claim C6: for every cipher capability, `Cmac::new` derives
`subkey1 = dbl(encrypt(zero_block))` and `subkey2 = dbl(subkey1)`, and
initializes a zero state with `state_pos = 0` and `finished = false`. -/
theorem c6_new_spec (enc : List Nat → List Nat) :
    Cmac.new enc = { subkey1 := Block.dbl (enc zeroBlock)
                     subkey2 := Block.dbl (Block.dbl (enc zeroBlock))
                     state := zeroBlock
                     state_pos := 0
                     finished := false } := rfl

/-- Claim C7: `state_pos ≤ 16` holds after construction and after reset
and is preserved by every `update` and `finish`, so it holds in every
reachable instance. -/
theorem c7_state_pos_invariant (enc : List Nat → List Nat) (c : Cmac)
    (h : Reachable enc c) : c.state_pos ≤ 16 :=
  reachable_pos_le enc c h

/-- Witness for C7 at a concrete reachable state: a fresh instance updated
with 20 bytes (one interior block committed, 4 bytes buffered). -/
theorem c7_state_pos_invariant_witness :
    ({ subkey1 := List.replicate 16 2
       subkey2 := List.replicate 16 4
       state := [15, 15, 15, 15, 8, 8, 8, 8, 8, 8, 8, 8, 8, 8, 8, 8]
       state_pos := 4
       finished := false } : Cmac).state_pos ≤ 16 :=
  c7_state_pos_invariant encSucc _
    (Reachable.upd (Cmac.new encSucc) _ (List.replicate 20 7) Reachable.new (by decide))

/-- Claim C8: with the finished flag set, every `update` and every
`finish` aborts (modelled as `none`, so no mutated instance is produced),
until `reset` clears the flag. -/
theorem c8_finished_aborts (enc : List Nat → List Nat) (c : Cmac) (msg : List Nat)
    (h : c.finished = true) :
    Cmac.update enc c msg = none ∧ Cmac.finish enc c = none ∧
      (Cmac.reset c).finished = false := by
  refine ⟨?_, ?_, rfl⟩
  · unfold Cmac.update
    rw [if_pos h]
  · unfold Cmac.finish
    rw [if_pos h]

/-- Witness for C8 at a concrete finished instance. -/
theorem c8_finished_aborts_witness :
    Cmac.update encSucc { (Cmac.new encSucc) with finished := true } [0] = none ∧
    Cmac.finish encSucc { (Cmac.new encSucc) with finished := true } = none ∧
    (Cmac.reset { (Cmac.new encSucc) with finished := true }).finished = false :=
  c8_finished_aborts encSucc { (Cmac.new encSucc) with finished := true } [0] rfl

/-- Claim C10: `update` with an empty slice on a ready instance changes
nothing, so empty update calls inserted anywhere in a chunk sequence do
not change the tag `finish` produces. -/
theorem c10_update_empty (enc : List Nat → List Nat) (c : Cmac)
    (chunks1 chunks2 : List (List Nat)) (hf : c.finished = false) :
    Cmac.update enc c [] = some c ∧
    tagOfChunks enc c (chunks1 ++ [] :: chunks2) = tagOfChunks enc c (chunks1 ++ chunks2) := by
  refine ⟨update_nil enc c hf, ?_⟩
  unfold tagOfChunks
  rw [updateMany_append, updateMany_append]
  cases h1 : updateMany enc (some c) chunks1 with
  | none => rw [updateMany_none, updateMany_none]
  | some c1 =>
    have hf1 : c1.finished = false := by
      obtain ⟨_, _, h3⟩ := updateMany_some_fields enc chunks1 c c1 h1
      rw [h3, hf]
    have hstep : updateMany enc (some c1) ([] :: chunks2) =
        updateMany enc (Cmac.update enc c1 []) chunks2 := rfl
    rw [hstep, update_nil enc c1 hf1]

/-- Witness for C10 on a fresh instance with concrete chunk lists. -/
theorem c10_update_empty_witness :
    Cmac.update encSucc (Cmac.new encSucc) [] = some (Cmac.new encSucc) ∧
    tagOfChunks encSucc (Cmac.new encSucc) ([[1, 2]] ++ [] :: [[3]]) =
      tagOfChunks encSucc (Cmac.new encSucc) ([[1, 2]] ++ [[3]]) :=
  c10_update_empty encSucc (Cmac.new encSucc) [[1, 2]] [[3]] rfl

/-- Claim C3 counterexample: an update that fills the buffered block to
exactly 16 bytes leaves `state_pos = 16` and the block unencrypted; it
does not encrypt the block nor reset `state_pos` to 0. -/
theorem c3_counterexample :
    Cmac.update encSucc (Cmac.new encSucc) (List.replicate 16 1) =
      some { (Cmac.new encSucc) with
        state := List.replicate 16 1
        state_pos := 16 } ∧
    (Cmac.update encSucc (Cmac.new encSucc) (List.replicate 16 1)).map Cmac.state_pos ≠
      some 0 ∧
    (Cmac.update encSucc (Cmac.new encSucc) (List.replicate 16 1)).map Cmac.state ≠
      some (encSucc (List.replicate 16 1)) :=
  ⟨by decide, by decide, by decide⟩

/-- Claim C3 amended: `update` XORs the needed leading bytes into the
state at offset `state_pos`; an input that exactly fills the block leaves
`state_pos = 16` with the block unencrypted (encryption deferred to the
next `update` or to `finish`); when the input strictly exceeds the space
remaining, the completed block is encrypted and `state_pos` is reset to 0
before the remaining bytes are absorbed. -/
theorem c3_update_fill_spec (enc : List Nat → List Nat) (c : Cmac) (msg : List Nat)
    (hf : c.finished = false) (hp : c.state_pos ≤ 16) :
    (0 < msg.length → c.state_pos + msg.length = 16 →
      Cmac.update enc c msg =
        some { c with state := xorInto c.state c.state_pos msg, state_pos := 16 }) ∧
    (16 - c.state_pos < msg.length →
      Cmac.update enc c msg =
        Cmac.update enc
          { c with
            state := enc (xorInto c.state c.state_pos (msg.take (16 - c.state_pos)))
            state_pos := 0 }
          (msg.drop (16 - c.state_pos))) := by
  constructor
  · intro _h0 hfill
    rw [update_eq_foldl enc c msg hf hp]
    rw [foldl_absorb_small enc msg c.state c.state_pos (by omega)]
    dsimp only
    rw [hfill]
  · intro hlt
    rw [update_eq_foldl enc c msg hf hp]
    rw [update_eq_foldl enc
      { c with
        state := enc (xorInto c.state c.state_pos (msg.take (16 - c.state_pos)))
        state_pos := 0 }
      (msg.drop (16 - c.state_pos)) hf (show (0 : Nat) ≤ 16 by omega)]
    conv_lhs => rw [← List.take_append_drop (16 - c.state_pos) msg, List.foldl_append]
    rw [foldl_absorb_small enc (msg.take (16 - c.state_pos)) c.state c.state_pos
      (by simp; omega)]
    have h16' : c.state_pos + (msg.take (16 - c.state_pos)).length = 16 := by
      simp; omega
    rw [h16']
    rw [foldl_absorb_enc enc _ (msg.drop (16 - c.state_pos))
      (by
        intro hnil
        have hl := congrArg List.length hnil
        simp at hl
        omega)]

/-- Witness for C3: a fresh instance filled by exactly 16 bytes (deferred,
cursor 16) and one fed 20 bytes (completed block encrypted, cursor reset
to 0 before the 4-byte tail). -/
theorem c3_update_fill_spec_witness :
    Cmac.update encSucc (Cmac.new encSucc) (List.replicate 16 9) =
      some { (Cmac.new encSucc) with
        state := xorInto (Cmac.new encSucc).state (Cmac.new encSucc).state_pos
          (List.replicate 16 9)
        state_pos := 16 } ∧
    Cmac.update encSucc (Cmac.new encSucc) (List.replicate 20 7) =
      Cmac.update encSucc
        { (Cmac.new encSucc) with
          state := encSucc (xorInto (Cmac.new encSucc).state (Cmac.new encSucc).state_pos
            ((List.replicate 20 7).take (16 - (Cmac.new encSucc).state_pos)))
          state_pos := 0 }
        ((List.replicate 20 7).drop (16 - (Cmac.new encSucc).state_pos)) :=
  ⟨(c3_update_fill_spec encSucc (Cmac.new encSucc) (List.replicate 16 9) rfl (by decide)).1
      (by decide) (by decide),
   (c3_update_fill_spec encSucc (Cmac.new encSucc) (List.replicate 20 7) rfl (by decide)).2
      (by decide)⟩

/-- Claim C9: `reset` zeroes `state`, `state_pos` and `finished` while
keeping the subkeys (and the owned cipher), so replaying any sequence of
updates plus finish after a reset yields the same tag as on a freshly
constructed instance. -/
theorem c9_reset_spec (enc : List Nat → List Nat) (c : Cmac)
    (chunks : List (List Nat)) (h : Reachable enc c) :
    Cmac.reset c = { c with state := zeroBlock, state_pos := 0, finished := false } ∧
    (Cmac.reset c).subkey1 = c.subkey1 ∧ (Cmac.reset c).subkey2 = c.subkey2 ∧
    tagOfChunks enc (Cmac.reset c) chunks = tagOfChunks enc (Cmac.new enc) chunks := by
  refine ⟨rfl, rfl, rfl, ?_⟩
  obtain ⟨h1, h2⟩ := reachable_subkeys enc c h
  have hnew : Cmac.reset c = Cmac.new enc := by
    cases c with
    | mk s1 s2 st pos fin =>
      dsimp only at h1 h2
      rw [show Cmac.reset (Cmac.mk s1 s2 st pos fin) =
        Cmac.mk s1 s2 zeroBlock 0 false from rfl]
      rw [h1, h2]
      rfl
  rw [hnew]

/-- Witness for C9 at a concrete finished instance (the fresh instance
after `finish` on the empty message). -/
theorem c9_reset_spec_witness :
    Cmac.reset cFin = { cFin with state := zeroBlock, state_pos := 0, finished := false } ∧
    (Cmac.reset cFin).subkey1 = cFin.subkey1 ∧ (Cmac.reset cFin).subkey2 = cFin.subkey2 ∧
    tagOfChunks encSucc (Cmac.reset cFin) [[5]] = tagOfChunks encSucc (Cmac.new encSucc) [[5]] :=
  c9_reset_spec encSucc cFin [[5]]
    (Reachable.fin (Cmac.new encSucc) cFin (0x85 :: List.replicate 15 5)
      Reachable.new (by decide))

/-- Claim C4: feeding a fresh instance one `update` with the whole message
produces the same tag as any chunked sequence of `update` calls over the
same bytes. -/
theorem c4_streaming_equiv (enc : List Nat → List Nat) (chunks : List (List Nat)) :
    tagOfChunks enc (Cmac.new enc) chunks = tagOfChunks enc (Cmac.new enc) [chunks.flatten] := by
  unfold tagOfChunks
  rw [updateMany_eq_foldl enc chunks (Cmac.new enc) rfl (show (0 : Nat) ≤ 16 by omega)]
  rw [updateMany_eq_foldl enc [chunks.flatten] (Cmac.new enc) rfl (show (0 : Nat) ≤ 16 by omega)]
  simp only [List.flatten_cons, List.flatten_nil, List.append_nil]

/-- Claim C1 counterexample: the empty message (total length 0, an exact
multiple of 16) does not make `finish` XOR `subkey1`: the tag on a fresh
instance differs from the subkey1-branch prediction, both without and
with 0x80 padding. -/
theorem c1_counterexample :
    (0 : Nat) % 16 = 0 ∧
    (Cmac.finish encSucc (Cmac.new encSucc)).map Prod.fst ≠
      some (encSucc (Block.xor_in_place (Cmac.new encSucc).state (Cmac.new encSucc).subkey1)) ∧
    (Cmac.finish encSucc (Cmac.new encSucc)).map Prod.fst ≠
      some (encSucc ((Block.xor_in_place (Cmac.new encSucc).state (Cmac.new encSucc).subkey1).set 0
        ((Block.xor_in_place (Cmac.new encSucc).state (Cmac.new encSucc).subkey1).getD 0 0 ^^^ 0x80))) :=
  ⟨rfl, by decide, by decide⟩

/-- Claim C1 amended: over any sequence of `update` calls on a fresh
instance, a total message length that is a positive multiple of 16 makes
`finish` XOR `subkey1` (cursor at 16, no padding); a total length of 0 or
any non-multiple of 16 makes it XOR `subkey2` and apply the 0x80 pad at
the cursor. -/
theorem c1_subkey_selection (enc : List Nat → List Nat)
    (chunks : List (List Nat)) (c' : Cmac)
    (h : updateMany enc (some (Cmac.new enc)) chunks = some c') :
    (0 < chunks.flatten.length ∧ chunks.flatten.length % 16 = 0 →
      c'.state_pos = 16 ∧
      Cmac.finish enc c' =
        some (enc (Block.xor_in_place c'.state c'.subkey1),
          { c' with state := enc (Block.xor_in_place c'.state c'.subkey1), finished := true })) ∧
    (chunks.flatten.length = 0 ∨ chunks.flatten.length % 16 ≠ 0 →
      c'.state_pos < 16 ∧
      Cmac.finish enc c' =
        some (enc ((Block.xor_in_place c'.state c'.subkey2).set c'.state_pos
            ((Block.xor_in_place c'.state c'.subkey2).getD c'.state_pos 0 ^^^ 0x80)),
          { c' with
            state := enc ((Block.xor_in_place c'.state c'.subkey2).set c'.state_pos
              ((Block.xor_in_place c'.state c'.subkey2).getD c'.state_pos 0 ^^^ 0x80))
            finished := true })) := by
  rw [updateMany_eq_foldl enc chunks (Cmac.new enc) rfl (show (0 : Nat) ≤ 16 by omega)] at h
  cases h
  have hple : (List.foldl (absorbByte enc)
      ((Cmac.new enc).state, (Cmac.new enc).state_pos) chunks.flatten).2 ≤ 16 :=
    foldl_absorb_pos_le enc chunks.flatten (Cmac.new enc).state (Cmac.new enc).state_pos
      (show (0 : Nat) ≤ 16 by omega)
  have hpeq : (List.foldl (absorbByte enc)
      ((Cmac.new enc).state, (Cmac.new enc).state_pos) chunks.flatten).2 =
      if chunks.flatten.length = 0 then 0 else (chunks.flatten.length - 1) % 16 + 1 :=
    foldl_absorb_pos_eq enc (Cmac.new enc).state chunks.flatten
  constructor
  · rintro ⟨hL0, hLmod⟩
    have h16 : (List.foldl (absorbByte enc)
        ((Cmac.new enc).state, (Cmac.new enc).state_pos) chunks.flatten).2 = 16 := by
      rw [hpeq, if_neg (by omega)]
      omega
    refine ⟨h16, ?_⟩
    rw [finish_eq_of_ready enc _ rfl hple]
    dsimp only
    rw [if_pos h16]
  · intro hor
    have hlt : (List.foldl (absorbByte enc)
        ((Cmac.new enc).state, (Cmac.new enc).state_pos) chunks.flatten).2 < 16 := by
      rw [hpeq]
      rcases hor with h0 | hm <;> split <;> omega
    refine ⟨hlt, ?_⟩
    rw [finish_eq_of_ready enc _ rfl hple]
    dsimp only
    rw [if_neg (by omega)]

/-- Witness for C1 at a concrete one-byte message (length 1, not a
multiple of 16: the subkey2-with-padding branch applies). -/
theorem c1_subkey_selection_witness :
    cOne.state_pos < 16 ∧
    Cmac.finish encSucc cOne =
      some (encSucc ((Block.xor_in_place cOne.state cOne.subkey2).set cOne.state_pos
          ((Block.xor_in_place cOne.state cOne.subkey2).getD cOne.state_pos 0 ^^^ 0x80)),
        { cOne with
          state := encSucc ((Block.xor_in_place cOne.state cOne.subkey2).set cOne.state_pos
            ((Block.xor_in_place cOne.state cOne.subkey2).getD cOne.state_pos 0 ^^^ 0x80))
          finished := true }) :=
  (c1_subkey_selection encSucc [[1]] cOne (by decide)).2 (by decide)
